import Mathlib

/-!
Shallow embedding of the minimal Transformer next-token predictor
(`predictor.ipynb`): tokenizer, embedding lookup, sinusoidal positional
encoding, single-head self-attention, transformer block, model forward pass
and argmax-based prediction.  Tensors of shape L × D are modelled as
`List (List ℝ)` (the batch dimension of the source, always 1, is dropped);
fallible operations return `Except Err`.
-/

namespace SimpleLLMModel

/-- Error classes observable by a caller of the core, mirroring the Python
exception types the source can raise: a broadcast/shape mismatch
(`RuntimeError`), an out-of-range embedding index (`IndexError`), and a
missing vocabulary key (`KeyError`). -/
inductive Err
  | shapeMismatch
  | indexOutOfRange
  | keyMissing
  deriving DecidableEq

/-- Left-to-right effectful map over a list, stopping at the first error;
models a Python list comprehension whose body may raise. -/
def mapExceptList (f : α → Except Err β) : List α → Except Err (List β)
  | [] => Except.ok []
  | a :: as =>
    match f a with
    | Except.error e => Except.error e
    | Except.ok b =>
      match mapExceptList f as with
      | Except.error e => Except.error e
      | Except.ok bs => Except.ok (b :: bs)

/-- Accumulator-based splitter: `text.split()` in Python splits on runs of
whitespace and produces no empty words. -/
def splitWsAux : List Char → List Char → List (List Char)
  | [], acc => if acc.isEmpty then [] else [acc.reverse]
  | c :: cs, acc =>
    if c.isWhitespace then
      if acc.isEmpty then splitWsAux cs [] else acc.reverse :: splitWsAux cs []
    else splitWsAux cs (c :: acc)

/-- The whitespace-split words of a text, as produced by `text.split()`. -/
def words (text : String) : List String :=
  (splitWsAux text.data []).map (fun cs => String.mk cs)

/-- The reserved unknown-token key of the vocabulary. -/
def unkToken : String := "<UNK>"

/-- `tokenize(text, vocab)` from the source:
`[vocab.get(word, vocab["<UNK>"]) for word in text.split()]`.
Python evaluates the default argument `vocab["<UNK>"]` for every word before
the `get` lookup, so a missing unknown-token entry raises `KeyError` as soon
as the first word is processed. -/
def tokenize (text : String) (vocab : List (String × ℕ)) : Except Err (List ℕ) :=
  mapExceptList
    (fun w =>
      match vocab.lookup unkToken with
      | none => Except.error Err.keyMissing
      | some unk => Except.ok ((vocab.lookup w).getD unk))
    (words text)

/-- `nn.Embedding` row lookup: valid for `0 ≤ t < vocab_size`, otherwise an
`IndexError` is raised. -/
def embedLookup (table : List (List ℝ)) (t : ℕ) : Except Err (List ℝ) :=
  if t < table.length then Except.ok (table.getD t []) else Except.error Err.indexOutOfRange

/-- `Embedding.forward` applied over a token-id sequence. -/
def embedForward (table : List (List ℝ)) (ts : List ℕ) : Except Err (List (List ℝ)) :=
  mapExceptList (embedLookup table) ts

/-- Dot product of two vectors (trailing entries of the longer one ignored;
all uses are on equal-length vectors). -/
def dot (a b : List ℝ) : ℝ := (List.zipWith (fun x y => x * y) a b).sum

/-- One output row of `nn.Linear`: entry `j` is `dot (W_j) v + b_j`
(`y = x Wᵀ + b` with `W : out × in`). -/
def linearRow (W : List (List ℝ)) (b : List ℝ) (v : List ℝ) : List ℝ :=
  List.zipWith (fun wr bj => dot wr v + bj) W b

/-- `nn.Linear` applied position-wise over a sequence. -/
def linearMap (W : List (List ℝ)) (b : List ℝ) (x : List (List ℝ)) : List (List ℝ) :=
  x.map (linearRow W b)

/-- `torch.bmm A Bᵀ`: entry `(i, j)` is `dot A_i B_j`. -/
def matMulT (A B : List (List ℝ)) : List (List ℝ) :=
  A.map (fun ar => B.map (fun br => dot ar br))

/-- Column `d` of a matrix (rows shorter than `d + 1` contribute `0`). -/
def colOf (B : List (List ℝ)) (d : ℕ) : List ℝ := B.map (fun br => br.getD d 0)

/-- `torch.bmm A B`: entry `(i, d)` is `dot A_i (column d of B)`. -/
def matMul (A B : List (List ℝ)) : List (List ℝ) :=
  A.map (fun ar => (List.range (B.headD []).length).map (fun d => dot ar (colOf B d)))

/-- Entry-wise matrix addition (both operands have identical shape at every
use site). -/
def addMat (a b : List (List ℝ)) : List (List ℝ) :=
  List.zipWith (fun r s => List.zipWith (fun u v => u + v) r s) a b

/-- Row-wise softmax, the mathematical semantics of
`torch.softmax(scores, dim=-1)`. -/
noncomputable def softmaxRow (r : List ℝ) : List ℝ :=
  r.map (fun s => Real.exp s / (r.map Real.exp).sum)

/-- Parameters of `SelfAttention`: the three `nn.Linear(embedding_dim,
embedding_dim)` projections (weights and biases). -/
structure AttnWeights where
  Wq : List (List ℝ)
  Wk : List (List ℝ)
  Wv : List (List ℝ)
  bq : List ℝ
  bk : List ℝ
  bv : List ℝ

/-- The scaled score matrix of `SelfAttention.forward`:
`torch.bmm(queries, keys.transpose(1, 2)) / torch.sqrt(x.size(-1))`. -/
noncomputable def scoresOf (w : AttnWeights) (x : List (List ℝ)) : List (List ℝ) :=
  (matMulT (linearMap w.Wq w.bq x) (linearMap w.Wk w.bk x)).map
    (fun r => r.map (fun s => s / Real.sqrt (((x.headD []).length : ℕ) : ℝ)))

/-- The attention-weight matrix: `torch.softmax(scores, dim=-1)`. -/
noncomputable def attnWeightsOf (w : AttnWeights) (x : List (List ℝ)) : List (List ℝ) :=
  (scoresOf w x).map softmaxRow

/-- `SelfAttention.forward`: `torch.bmm(attention_weights, values)`. -/
noncomputable def selfAttentionForward (w : AttnWeights) (x : List (List ℝ)) : List (List ℝ) :=
  matMul (attnWeightsOf w x) (linearMap w.Wv w.bv x)

/-- Modelled from the spec: the attention pipeline exactly as §4.4 words it —
project to Q, K, V; raw scores `Q · Kᵀ`; scale by `1/√D`; row-wise softmax;
output `weights · V`.  Stated separately from `selfAttentionForward` (which
is translated from the source) so the two can be compared. -/
noncomputable def attendSpec (w : AttnWeights) (D : ℕ) (x : List (List ℝ)) : List (List ℝ) :=
  let q := linearMap w.Wq w.bq x
  let k := linearMap w.Wk w.bk x
  let v := linearMap w.Wv w.bv x
  let scores := matMulT q k
  let scaled := scores.map (fun r => r.map (fun s => s * (1 / Real.sqrt (D : ℝ))))
  let weights := scaled.map softmaxRow
  matMul weights v

/-- Mean of a vector's entries (empty vector: `0`, from division by zero). -/
noncomputable def rowMean (v : List ℝ) : ℝ := v.sum / (v.length : ℝ)

/-- Biased variance of a vector's entries, as used by `nn.LayerNorm`. -/
noncomputable def rowVar (v : List ℝ) : ℝ :=
  (v.map (fun t => (t - rowMean v) ^ 2)).sum / (v.length : ℝ)

/-- The `eps` stabiliser of `nn.LayerNorm` (PyTorch default `1e-5`). -/
noncomputable def layerNormEps : ℝ := 1e-5

/-- The normalisation step of `nn.LayerNorm` before the learned affine map:
`(v - mean) / sqrt (var + eps)` entry-wise. -/
noncomputable def normalizeRow (eps : ℝ) (v : List ℝ) : List ℝ :=
  v.map (fun t => (t - rowMean v) / Real.sqrt (rowVar v + eps))

/-- One position's `nn.LayerNorm`: normalise, then apply the learned scale
`g` and shift `be`. -/
noncomputable def layerNormRow (g be : List ℝ) (v : List ℝ) : List ℝ :=
  List.zipWith (fun p bj => p + bj)
    (List.zipWith (fun t gj => t * gj) (normalizeRow layerNormEps v) g) be

/-- `nn.LayerNorm` applied position-wise over a sequence. -/
noncomputable def layerNorm (g be : List ℝ) (x : List (List ℝ)) : List (List ℝ) :=
  x.map (layerNormRow g be)

/-- `nn.ReLU` applied entry-wise. -/
noncomputable def reluRow (v : List ℝ) : List ℝ := v.map (fun t => max t 0)

/-- Parameters of `TransformerBlock`: attention weights, the two feed-forward
linear layers, and the two layer-norm affine maps. -/
structure BlockWeights where
  attn : AttnWeights
  W1 : List (List ℝ)
  b1 : List ℝ
  W2 : List (List ℝ)
  b2 : List ℝ
  gamma1 : List ℝ
  beta1 : List ℝ
  gamma2 : List ℝ
  beta2 : List ℝ

/-- The block's `feed_forward`: `nn.Sequential(Linear(D, H), ReLU(),
Linear(H, D))`. -/
noncomputable def feedForward (bw : BlockWeights) (x : List (List ℝ)) : List (List ℝ) :=
  linearMap bw.W2 bw.b2 ((linearMap bw.W1 bw.b1 x).map reluRow)

/-- `TransformerBlock.forward`: attention, residual + norm, feed-forward,
residual + norm. -/
noncomputable def transformerBlockForward (bw : BlockWeights) (x : List (List ℝ)) : List (List ℝ) :=
  let attended := selfAttentionForward bw.attn x
  let x1 := layerNorm bw.gamma1 bw.beta1 (addMat x attended)
  let forwarded := feedForward bw x1
  layerNorm bw.gamma2 bw.beta2 (addMat x1 forwarded)

/-- An entry of the positional-encoding table built in
`PositionalEncoding.__init__`: even index `i` holds
`sin(p * exp(i * (-log 10000 / D)))`, odd index `i` holds
`cos(p * exp((i-1) * (-log 10000 / D)))` (the `div_term` entry paired with
column `i` by the `0::2` / `1::2` slice assignments). -/
noncomputable def peEntry (D p i : ℕ) : ℝ :=
  if i % 2 = 0 then
    Real.sin ((p : ℝ) * Real.exp ((i : ℝ) * (-Real.log 10000 / (D : ℝ))))
  else
    Real.cos ((p : ℝ) * Real.exp (((i - 1 : ℕ) : ℝ) * (-Real.log 10000 / (D : ℝ))))

/-- Row `p` of the positional-encoding table. -/
noncomputable def peRow (D p : ℕ) : List ℝ := (List.range D).map (fun i => peEntry D p i)

/-- The precomputed `pe` buffer: `M × D`, built once at construction. -/
noncomputable def peTable (D M : ℕ) : List (List ℝ) := (List.range M).map (fun p => peRow D p)

/-- Leading-dimension broadcasting for `x + pe_slice` as PyTorch performs it:
equal row counts add position-wise; a single-row operand is broadcast;
anything else raises a shape-mismatch `RuntimeError`. -/
def broadcastAddRows (x pe : List (List ℝ)) : Except Err (List (List ℝ)) :=
  if x.length = pe.length then Except.ok (addMat x pe)
  else if pe.length = 1 then
    Except.ok (x.map (fun r => List.zipWith (fun u v => u + v) r (pe.headD [])))
  else if x.length = 1 then
    Except.ok (pe.map (fun pr => List.zipWith (fun u v => u + v) (x.headD []) pr))
  else Except.error Err.shapeMismatch

/-- `PositionalEncoding.forward`: `x + self.pe[:x.size(0), :]`. -/
def positionalForward (pe x : List (List ℝ)) : Except Err (List (List ℝ)) :=
  broadcastAddRows x (pe.take x.length)

/-- Parameters of `SimpleLLM`: embedding table, the embedding dimension and
`max_seq_len` handed to `PositionalEncoding` (the source default is 5000),
the stacked blocks, and the output projection. -/
structure LLMWeights where
  embTable : List (List ℝ)
  embDim : ℕ
  maxSeqLen : ℕ
  blocks : List BlockWeights
  Wout : List (List ℝ)
  bout : List ℝ

/-- `SimpleLLM.forward`: embedding, positional encoding (the two transposes
of the source align the batch axis and cancel for batch size 1), the
sequential transformer blocks, then the output projection to logits. -/
noncomputable def simpleLLMForward (w : LLMWeights) (ts : List ℕ) : Except Err (List (List ℝ)) :=
  match embedForward w.embTable ts with
  | Except.error e => Except.error e
  | Except.ok emb =>
    match positionalForward (peTable w.embDim w.maxSeqLen) emb with
    | Except.error e => Except.error e
    | Except.ok pos =>
      Except.ok (linearMap w.Wout w.bout
        (w.blocks.foldl (fun acc bw => transformerBlockForward bw acc) pos))

/-- `torch.argmax` over a vector: the index of the first occurrence of the
maximum value (the documented tie-breaking of `torch.argmax`). -/
noncomputable def argmaxIdx : List ℝ → ℕ
  | [] => 0
  | [_] => 0
  | v :: w :: rest =>
    if v < (w :: rest).getD (argmaxIdx (w :: rest)) 0 then argmaxIdx (w :: rest) + 1 else 0

/-- The logit row at the last position: `output[:, -1, :]`. -/
def lastRow (m : List (List ℝ)) : List ℝ := m.getD (m.length - 1) []

/-- The test-cell prediction:
`torch.argmax(output[:, -1, :]).item()`; indexing position `-1` of an empty
sequence raises `IndexError`. -/
noncomputable def predictNext (w : LLMWeights) (ts : List ℕ) : Except Err ℕ :=
  match simpleLLMForward w ts with
  | Except.error e => Except.error e
  | Except.ok m =>
    if m.length = 0 then Except.error Err.indexOutOfRange
    else Except.ok (argmaxIdx (lastRow m))

/-- A forward call as a state transition: the source's `forward` reads the
module parameters and never assigns them, so the post-call state is the
pre-call state. -/
noncomputable def forwardCall (w : LLMWeights) (ts : List ℕ) :
    Except Err (List (List ℝ)) × LLMWeights :=
  (simpleLLMForward w ts, w)

/-- A `predict_next` call as a state transition. -/
noncomputable def predictNextCall (w : LLMWeights) (ts : List ℕ) :
    Except Err ℕ × LLMWeights :=
  (predictNext w ts, w)

/-- A tiny concrete block (D = 1, hidden = 1) used to instantiate theorems on
a concrete input. -/
def demoBlock : BlockWeights :=
  BlockWeights.mk (AttnWeights.mk [[1]] [[1]] [[1]] [0] [0] [0])
    [[1]] [0] [[1]] [0] [1] [0] [1] [0]

/-! ### Helper lemmas: shapes -/

theorem length_linearRow (W : List (List ℝ)) (b v : List ℝ) :
    (linearRow W b v).length = min W.length b.length := by
  simp [linearRow]

theorem length_linearMap (W : List (List ℝ)) (b : List ℝ) (x : List (List ℝ)) :
    (linearMap W b x).length = x.length := by
  simp [linearMap]

theorem mem_linearMap_length {W : List (List ℝ)} {b : List ℝ} {x : List (List ℝ)}
    {r : List ℝ} (hr : r ∈ linearMap W b x) : r.length = min W.length b.length := by
  rcases List.mem_map.mp hr with ⟨a, _, rfl⟩
  exact length_linearRow W b a

theorem length_matMul (A B : List (List ℝ)) : (matMul A B).length = A.length := by
  simp [matMul]

theorem mem_matMul_length {A B : List (List ℝ)} {r : List ℝ} (hr : r ∈ matMul A B) :
    r.length = (B.headD []).length := by
  rcases List.mem_map.mp hr with ⟨a, _, rfl⟩
  simp

theorem length_matMulT (A B : List (List ℝ)) : (matMulT A B).length = A.length := by
  simp [matMulT]

theorem length_scoresOf (w : AttnWeights) (x : List (List ℝ)) :
    (scoresOf w x).length = x.length := by
  simp [scoresOf, length_matMulT, length_linearMap]

theorem mem_scoresOf_length {w : AttnWeights} {x : List (List ℝ)} {s : List ℝ}
    (hs : s ∈ scoresOf w x) : s.length = x.length := by
  rcases List.mem_map.mp hs with ⟨r, hr, rfl⟩
  rcases List.mem_map.mp hr with ⟨a, _, rfl⟩
  simp [linearMap]

theorem length_attnWeightsOf (w : AttnWeights) (x : List (List ℝ)) :
    (attnWeightsOf w x).length = x.length := by
  simp [attnWeightsOf, length_scoresOf]

theorem length_selfAttention (w : AttnWeights) (x : List (List ℝ)) :
    (selfAttentionForward w x).length = x.length := by
  simp [selfAttentionForward, length_matMul, length_attnWeightsOf]

theorem length_addMat (a b : List (List ℝ)) :
    (addMat a b).length = min a.length b.length := by
  simp [addMat]

theorem length_layerNorm (g be : List ℝ) (x : List (List ℝ)) :
    (layerNorm g be x).length = x.length := by
  simp [layerNorm]

theorem length_feedForward (bw : BlockWeights) (x : List (List ℝ)) :
    (feedForward bw x).length = x.length := by
  simp [feedForward, length_linearMap]

theorem length_transformerBlock (bw : BlockWeights) (x : List (List ℝ)) :
    (transformerBlockForward bw x).length = x.length := by
  simp [transformerBlockForward, length_layerNorm, length_addMat, length_feedForward,
    length_selfAttention]

theorem length_normalizeRow (eps : ℝ) (v : List ℝ) :
    (normalizeRow eps v).length = v.length := by
  simp [normalizeRow]

theorem length_layerNormRow (g be v : List ℝ) :
    (layerNormRow g be v).length = min (min v.length g.length) be.length := by
  simp [layerNormRow, length_normalizeRow]

theorem mem_zipWith {f : α → β → γ} :
    ∀ {l₁ : List α} {l₂ : List β} {c : γ}, c ∈ List.zipWith f l₁ l₂ →
      ∃ a ∈ l₁, ∃ b ∈ l₂, c = f a b := by
  intro l₁
  induction l₁ with
  | nil => intro l₂ c h; simp at h
  | cons a t ih =>
    intro l₂ c h
    cases l₂ with
    | nil => simp at h
    | cons b s =>
      rcases List.mem_cons.mp h with h | h
      · exact ⟨a, by simp, b, by simp, h⟩
      · rcases ih h with ⟨a2, ha2, b2, hb2, rfl⟩
        exact ⟨a2, by simp [ha2], b2, by simp [hb2], rfl⟩

theorem mem_addMat {a b : List (List ℝ)} {r : List ℝ} (hr : r ∈ addMat a b) :
    ∃ u ∈ a, ∃ v ∈ b, r = List.zipWith (fun s t => s + t) u v := by
  exact mem_zipWith hr

theorem length_peTable (D M : ℕ) : (peTable D M).length = M := by
  simp [peTable]

theorem length_peRow (D p : ℕ) : (peRow D p).length = D := by
  simp [peRow]

/-! ### Helper lemmas: softmax -/

theorem sum_map_exp_pos (r : List ℝ) (hr : r ≠ []) : 0 < (r.map Real.exp).sum := by
  refine List.sum_pos _ ?_ ?_
  · intro a ha
    rcases List.mem_map.mp ha with ⟨s, _, rfl⟩
    exact Real.exp_pos s
  · simpa using hr

theorem softmaxRow_sum (r : List ℝ) (hr : r ≠ []) : (softmaxRow r).sum = 1 := by
  have hpos := sum_map_exp_pos r hr
  have h1 : (softmaxRow r).sum = (r.map Real.exp).sum * ((r.map Real.exp).sum)⁻¹ := by
    simp only [softmaxRow, div_eq_mul_inv]
    rw [List.sum_map_mul_right]
  rw [h1, mul_inv_cancel₀ hpos.ne']

theorem softmaxRow_nonneg {r : List ℝ} {v : ℝ} (hv : v ∈ softmaxRow r) : 0 ≤ v := by
  rcases List.mem_map.mp hv with ⟨s, hs, rfl⟩
  have hr : r ≠ [] := by rintro rfl; simp at hs
  exact div_nonneg (Real.exp_pos s).le (sum_map_exp_pos r hr).le

theorem length_softmaxRow (r : List ℝ) : (softmaxRow r).length = r.length := by
  simp [softmaxRow]

/-! ### Helper lemmas: layer normalisation -/

theorem sum_map_sub_div (l : List ℝ) (m c : ℝ) :
    (l.map (fun x => (x - m) / c)).sum = (l.sum - (l.length : ℝ) * m) / c := by
  induction l with
  | nil => simp
  | cons a t ih =>
    simp only [List.map_cons, List.sum_cons, ih, List.length_cons]
    push_cast
    ring

theorem rowVar_nonneg (v : List ℝ) : 0 ≤ rowVar v := by
  unfold rowVar
  apply div_nonneg
  · apply List.sum_nonneg
    intro a ha
    rcases List.mem_map.mp ha with ⟨t, _, rfl⟩
    exact sq_nonneg _
  · exact Nat.cast_nonneg _

theorem rowVar_add_eps_pos (v : List ℝ) : 0 < rowVar v + layerNormEps := by
  have h := rowVar_nonneg v
  have heps : (0:ℝ) < layerNormEps := by unfold layerNormEps; norm_num
  linarith

theorem sum_map_comp_sq (l : List ℝ) (m c : ℝ) :
    (l.map (fun x => ((x - m) / c - 0) ^ 2)).sum
      = (l.map (fun x => (x - m) ^ 2)).sum * (c ^ 2)⁻¹ := by
  induction l with
  | nil => simp
  | cons a t ih =>
    simp only [List.map_cons, List.sum_cons, ih]
    ring

theorem rowMean_normalizeRow (eps : ℝ) (v : List ℝ) :
    rowMean (normalizeRow eps v) = 0 := by
  rcases v with _ | ⟨a, t⟩
  · simp [normalizeRow, rowMean]
  · have hn : (((a :: t).length : ℕ) : ℝ) ≠ 0 :=
      Nat.cast_ne_zero.mpr (by simp)
    simp only [rowMean, normalizeRow, sum_map_sub_div, length_normalizeRow]
    rw [mul_comm, div_mul_cancel₀ _ hn]
    simp

theorem rowVar_normalizeRow (eps : ℝ) (v : List ℝ) (heps : 0 < rowVar v + eps) :
    rowVar (normalizeRow eps v) = rowVar v / (rowVar v + eps) := by
  have hc2 : Real.sqrt (rowVar v + eps) ^ 2 = rowVar v + eps := Real.sq_sqrt heps.le
  have hmean0 : rowMean (normalizeRow eps v) = 0 := rowMean_normalizeRow eps v
  have hsum : ((normalizeRow eps v).map
        (fun t => (t - rowMean (normalizeRow eps v)) ^ 2)).sum
      = (v.map (fun t => (t - rowMean v) ^ 2)).sum *
          (Real.sqrt (rowVar v + eps) ^ 2)⁻¹ := by
    simp only [hmean0]
    unfold normalizeRow
    rw [List.map_map]
    exact sum_map_comp_sq v (rowMean v) (Real.sqrt (rowVar v + eps))
  calc rowVar (normalizeRow eps v)
      = ((normalizeRow eps v).map
          (fun t => (t - rowMean (normalizeRow eps v)) ^ 2)).sum /
            ((normalizeRow eps v).length : ℝ) := rfl
    _ = ((v.map (fun t => (t - rowMean v) ^ 2)).sum *
          (Real.sqrt (rowVar v + eps) ^ 2)⁻¹) / (v.length : ℝ) := by
        rw [hsum, length_normalizeRow]
    _ = ((v.map (fun t => (t - rowMean v) ^ 2)).sum / (v.length : ℝ)) *
          (rowVar v + eps)⁻¹ := by
        rw [hc2]
        ring
    _ = rowVar v * (rowVar v + eps)⁻¹ := rfl
    _ = rowVar v / (rowVar v + eps) := (div_eq_mul_inv _ _).symm

/-! ### Helper lemmas: argmax -/

theorem argmaxIdx_spec (l : List ℝ) :
    (l ≠ [] → argmaxIdx l < l.length) ∧
    (∀ j, j < l.length →
      l.getD j 0 ≤ l.getD (argmaxIdx l) 0 ∧
      (l.getD j 0 = l.getD (argmaxIdx l) 0 → argmaxIdx l ≤ j)) := by
  induction l with
  | nil =>
    constructor
    · intro h; exact absurd rfl h
    · intro j hj; simp at hj
  | cons v t ih =>
    cases t with
    | nil =>
      constructor
      · intro _; simp [argmaxIdx]
      · intro j hj
        have hj0 : j = 0 := by simpa using Nat.lt_one_iff.mp (by simpa using hj)
        subst hj0
        simp [argmaxIdx]
    | cons w rest =>
      have hm := (ih.1 (by simp))
      by_cases hlt : v < (w :: rest).getD (argmaxIdx (w :: rest)) 0
      · have harg : argmaxIdx (v :: w :: rest) = argmaxIdx (w :: rest) + 1 := by
          simp only [argmaxIdx]
          rw [if_pos hlt]
        constructor
        · intro _
          rw [harg]
          simpa using Nat.succ_lt_succ hm
        · intro j hj
          rw [harg]
          cases j with
          | zero =>
            rw [List.getD_cons_zero, List.getD_cons_succ]
            exact ⟨le_of_lt hlt, fun he => absurd he (ne_of_lt hlt)⟩
          | succ j2 =>
            rw [List.getD_cons_succ, List.getD_cons_succ]
            have hj2 : j2 < (w :: rest).length := by simpa using Nat.succ_lt_succ_iff.mp hj
            rcases ih.2 j2 hj2 with ⟨hle, hfst⟩
            exact ⟨hle, fun he => Nat.succ_le_succ (hfst he)⟩
      · have harg : argmaxIdx (v :: w :: rest) = 0 := by
          simp only [argmaxIdx]
          rw [if_neg hlt]
        constructor
        · intro _; rw [harg]; simp
        · intro j hj
          rw [harg, List.getD_cons_zero]
          cases j with
          | zero => simp
          | succ j2 =>
            rw [List.getD_cons_succ]
            have hj2 : j2 < (w :: rest).length := by simpa using Nat.succ_lt_succ_iff.mp hj
            have hle : (w :: rest).getD j2 0 ≤ (w :: rest).getD (argmaxIdx (w :: rest)) 0 :=
              (ih.2 j2 hj2).1
            exact ⟨hle.trans (not_lt.mp hlt), fun _ => Nat.zero_le _⟩

/-! ### Helper lemmas: the forward pipeline and its shapes -/

theorem mapExceptList_ok_length {f : α → Except Err β} :
    ∀ {l : List α} {bs : List β}, mapExceptList f l = Except.ok bs → bs.length = l.length := by
  intro l
  induction l with
  | nil => intro bs h; simp only [mapExceptList] at h; cases h; rfl
  | cons a t ih =>
    intro bs h
    simp only [mapExceptList] at h
    cases hfa : f a with
    | error e => rw [hfa] at h; cases h
    | ok b =>
      rw [hfa] at h
      cases hrec : mapExceptList f t with
      | error e => rw [hrec] at h; cases h
      | ok bs2 =>
        rw [hrec] at h
        cases h
        simpa using ih hrec

theorem positionalForward_ok_length {pe x y : List (List ℝ)} (hpe : 1 ≤ pe.length)
    (h : positionalForward pe x = Except.ok y) : y.length = x.length := by
  unfold positionalForward broadcastAddRows at h
  by_cases h1 : x.length = (pe.take x.length).length
  · rw [if_pos h1] at h
    cases h
    rw [length_addMat, ← h1]
    exact min_self _
  · rw [if_neg h1] at h
    by_cases h2 : (pe.take x.length).length = 1
    · rw [if_pos h2] at h
      cases h
      simp
    · rw [if_neg h2] at h
      by_cases h3 : x.length = 1
      · exfalso
        apply h2
        rw [List.length_take, h3]
        omega
      · rw [if_neg h3] at h
        cases h

theorem foldl_blocks_length (blocks : List BlockWeights) :
    ∀ x : List (List ℝ),
      (blocks.foldl (fun acc bw => transformerBlockForward bw acc) x).length = x.length := by
  induction blocks with
  | nil => intro x; rfl
  | cons bw bs ih =>
    intro x
    simp only [List.foldl_cons]
    rw [ih, length_transformerBlock]

theorem simpleLLMForward_ok_length {w : LLMWeights} {ts : List ℕ} {m : List (List ℝ)}
    (hM : 1 ≤ w.maxSeqLen) (h : simpleLLMForward w ts = Except.ok m) :
    m.length = ts.length := by
  unfold simpleLLMForward at h
  split at h
  next e heq => cases h
  next emb heq =>
    split at h
    next e2 heq2 => cases h
    next pos heq2 =>
      cases h
      rw [length_linearMap, foldl_blocks_length]
      rw [positionalForward_ok_length (by rw [length_peTable]; exact hM) heq2]
      exact mapExceptList_ok_length heq

theorem mem_getD_of_ne_nil {m : List (List ℝ)} (hm : m ≠ []) :
    m.getD (m.length - 1) [] ∈ m := by
  have hlen : 0 < m.length := List.length_pos.mpr hm
  have hidx : m.length - 1 < m.length := by omega
  rw [List.getD_eq_getElem _ _ hidx]
  exact List.getElem_mem hidx

theorem simpleLLMForward_ok_rows {w : LLMWeights} {ts : List ℕ} {m : List (List ℝ)}
    (h : simpleLLMForward w ts = Except.ok m) :
    ∀ r ∈ m, r.length = min w.Wout.length w.bout.length := by
  unfold simpleLLMForward at h
  split at h
  next e heq => cases h
  next emb heq =>
    split at h
    next e2 heq2 => cases h
    next pos heq2 =>
      cases h
      intro r hr
      exact mem_linearMap_length hr

theorem getD_map_lt {α β : Type} {f : α → β} {l : List α} {i : ℕ}
    (h : i < l.length) (d : α) (d2 : β) : (l.map f).getD i d2 = f (l.getD i d) := by
  rw [List.getD_eq_getElem _ _ (by simpa using h), List.getD_eq_getElem _ _ h,
    List.getElem_map]

theorem mapExceptList_ok_of_forall {f : α → Except Err β} {g : α → β}
    (hf : ∀ a, f a = Except.ok (g a)) :
    ∀ l, mapExceptList f l = Except.ok (l.map g) := by
  intro l
  induction l with
  | nil => rfl
  | cons a t ih => simp only [mapExceptList, hf, ih, List.map_cons]

/-! ### Claim theorems -/

/-- C3: for every text and every vocabulary containing the unknown-token
entry, `tokenize` returns the IDs of the whitespace-split words in order,
substituting the unknown-token ID for absent words, and never errors; and
whenever `tokenize` does error, the unknown-token entry is missing. -/
theorem claim3_tokenize_unk_substitution (text : String) (vocab : List (String × ℕ)) :
    (∀ u, vocab.lookup unkToken = some u →
      tokenize text vocab =
        Except.ok ((words text).map (fun w => (vocab.lookup w).getD u))) ∧
    (∀ e, tokenize text vocab = Except.error e → vocab.lookup unkToken = none) := by
  have hok : ∀ u, vocab.lookup unkToken = some u →
      tokenize text vocab =
        Except.ok ((words text).map (fun w => (vocab.lookup w).getD u)) := by
    intro u hu
    unfold tokenize
    exact mapExceptList_ok_of_forall (fun a => by simp only [hu]) (words text)
  refine ⟨hok, ?_⟩
  intro e he
  cases hcase : vocab.lookup unkToken with
  | none => rfl
  | some u =>
    rw [hok u hcase] at he
    cases he

/-- C3 witness: a concrete vocabulary containing the unknown token; the
unknown word is mapped to the unknown-token ID 6 and the call succeeds. -/
theorem claim3_witness :
    tokenize ("hello xyz") [(("hello" : String), 0), (("<UNK>" : String), 6)] =
      Except.ok [0, 6] := by
  have h := (claim3_tokenize_unk_substitution ("hello xyz")
    [(("hello" : String), 0), (("<UNK>" : String), 6)]).1 6 (by decide)
  rw [h]
  exact congrArg Except.ok (by decide)

/-- C10: `tokenize` evaluates the vocabulary's unknown-token entry for every
word before the word's own lookup: with at least one word and no unknown-token
entry it errors with the key-lookup error even if all words are known, while
on a whitespace-only text it returns the empty sequence regardless. -/
theorem claim10_unk_evaluated_per_word (text : String) (vocab : List (String × ℕ)) :
    (words text ≠ [] → vocab.lookup unkToken = none →
      tokenize text vocab = Except.error Err.keyMissing) ∧
    (words text = [] → tokenize text vocab = Except.ok []) := by
  constructor
  · intro hw hnone
    unfold tokenize
    cases hws : words text with
    | nil => exact absurd hws hw
    | cons a t => simp only [mapExceptList, hnone]
  · intro hw
    unfold tokenize
    rw [hw]
    rfl

/-- C10 witness: with the unknown-token entry absent, a text whose only word
is in the vocabulary still errors, and a whitespace-only text still succeeds
with the empty sequence. -/
theorem claim10_witness :
    tokenize ("hello") [(("hello" : String), 0)] = Except.error Err.keyMissing ∧
    tokenize ("   ") [(("hello" : String), 0)] = Except.ok [] := by
  constructor
  · exact (claim10_unk_evaluated_per_word ("hello") [(("hello" : String), 0)]).1
      (by decide) (by decide)
  · exact (claim10_unk_evaluated_per_word ("   ") [(("hello" : String), 0)]).2 (by decide)

/-- C9: with fixed weights the model is deterministic and holds no mutable
state between calls: a `forward` (or `predict_next`) call leaves the weights
unchanged, and a call made after any other call returns exactly what a fresh
call on the same weights returns. -/
theorem claim9_deterministic_stateless (w : LLMWeights) (ts ts2 : List ℕ) :
    (forwardCall w ts).2 = w ∧
    (forwardCall ((forwardCall w ts2).2) ts).1 = (forwardCall w ts).1 ∧
    (predictNextCall w ts).2 = w ∧
    (predictNextCall ((predictNextCall w ts2).2) ts).1 = (predictNextCall w ts).1 :=
  ⟨rfl, rfl, rfl, rfl⟩

/-- C8 counterexample: on the empty sequence, self-attention does not fail —
with concrete weights it returns the empty (0 × D) result, contradicting the
claim that the call fails rather than returning a result. -/
theorem claim8_attend_empty_cex :
    selfAttentionForward (AttnWeights.mk [[1]] [[1]] [[1]] [0] [0] [0])
      ([] : List (List ℝ)) = [] := rfl

/-- C8 amended: calling self-attention on an empty sequence (L = 0) performs
no precondition check and does not fail: every tensor operation involved is
defined on zero-length sequences, and the call returns the empty result. -/
theorem claim8_attend_empty_returns (w : AttnWeights) :
    selfAttentionForward w ([] : List (List ℝ)) = [] := rfl

/-- C2: a sequence longer than `max_seq_len` makes the positional-encoding
addition fail with the shape-mismatch (configuration/overflow) error — it is
not silently truncated or wrapped — and that error is distinguishable from
the index-error and key-error classes. -/
theorem claim2_positional_overflow (D M : ℕ) (x : List (List ℝ))
    (hM : 2 ≤ M) (hx : M < x.length) :
    positionalForward (peTable D M) x = Except.error Err.shapeMismatch ∧
    Err.shapeMismatch ≠ Err.indexOutOfRange ∧
    Err.shapeMismatch ≠ Err.keyMissing := by
  have htake : ((peTable D M).take x.length).length = M := by
    rw [List.length_take, length_peTable]
    omega
  refine ⟨?_, by simp, by simp⟩
  unfold positionalForward broadcastAddRows
  have h1 : ¬ x.length = ((peTable D M).take x.length).length := by rw [htake]; omega
  have h2 : ¬ ((peTable D M).take x.length).length = 1 := by rw [htake]; omega
  have h3 : ¬ x.length = 1 := by omega
  rw [if_neg h1, if_neg h2, if_neg h3]

/-- C2 witness: a 3-position input against a table with `max_seq_len = 2`
fails with the shape-mismatch error. -/
theorem claim2_witness :
    positionalForward (peTable 1 2) [[(0:ℝ)], [0], [0]] = Except.error Err.shapeMismatch ∧
    Err.shapeMismatch ≠ Err.indexOutOfRange := by
  have h := claim2_positional_overflow 1 2 [[(0:ℝ)], [0], [0]] (by norm_num) (by simp)
  exact ⟨h.1, h.2.1⟩

/-- C5: every entry of the precomputed positional-encoding table follows the
sinusoidal formula — index `2k` of the row for position `p` is
`sin(p / 10000^(2k/D))` and index `2k+1` is `cos(p / 10000^(2k/D))` — and the
row for a position does not depend on the table length, i.e. it is a pure
function of position and `D`. -/
theorem claim5_pe_formula (D M p k : ℕ) (hp : p < M) :
    (2 * k < D →
      ((peTable D M).getD p []).getD (2 * k) 0 =
        Real.sin ((p : ℝ) / (10000 : ℝ) ^ (((2 * k : ℕ) : ℝ) / (D : ℝ)))) ∧
    (2 * k + 1 < D →
      ((peTable D M).getD p []).getD (2 * k + 1) 0 =
        Real.cos ((p : ℝ) / (10000 : ℝ) ^ (((2 * k : ℕ) : ℝ) / (D : ℝ)))) ∧
    (∀ M2, p < M2 → (peTable D M).getD p [] = (peTable D M2).getD p []) := by
  have hrow : ∀ M3, p < M3 → (peTable D M3).getD p [] = peRow D p := by
    intro M3 hp3
    have hlen : p < (peTable D M3).length := by rw [length_peTable]; exact hp3
    rw [List.getD_eq_getElem _ _ hlen]
    simp [peTable]
  have hentry : ∀ i, i < D → (peRow D p).getD i 0 = peEntry D p i := by
    intro i hi
    have hlen : i < (peRow D p).length := by rw [length_peRow]; exact hi
    rw [List.getD_eq_getElem _ _ hlen]
    simp [peRow]
  have harg : (p : ℝ) * Real.exp (((2 * k : ℕ) : ℝ) * (-Real.log 10000 / (D : ℝ))) =
      (p : ℝ) / (10000 : ℝ) ^ (((2 * k : ℕ) : ℝ) / (D : ℝ)) := by
    have he : ((2 * k : ℕ) : ℝ) * (-Real.log 10000 / (D : ℝ)) =
        -(Real.log 10000 * (((2 * k : ℕ) : ℝ) / (D : ℝ))) := by ring
    rw [he, Real.exp_neg, ← div_eq_mul_inv,
      Real.rpow_def_of_pos (by norm_num : (0:ℝ) < 10000)]
  refine ⟨?_, ?_, ?_⟩
  · intro h2k
    rw [hrow M hp, hentry _ h2k]
    unfold peEntry
    rw [if_pos (by omega : 2 * k % 2 = 0)]
    rw [harg]
  · intro h2k1
    rw [hrow M hp, hentry _ h2k1]
    unfold peEntry
    rw [if_neg (by omega : ¬ (2 * k + 1) % 2 = 0)]
    have hsub : (2 * k + 1 - 1 : ℕ) = 2 * k := by omega
    rw [hsub, harg]
  · intro M2 hp2
    rw [hrow M hp, hrow M2 hp2]

/-- C5 witness: position 0, dimension index 0 of a table with D = 2 evaluates
to `sin 0 = 0` by the formula. -/
theorem claim5_witness : ((peTable 2 1).getD 0 []).getD 0 0 = 0 := by
  have h := (claim5_pe_formula 2 1 0 0 (by norm_num)).1 (by norm_num)
  simpa using h

/-- C7: for a non-empty L × D input, self-attention returns an L × D output,
and every entry of the intermediate attention-weight matrix is non-negative
while every row of it sums to 1 (hence is within ±1e-5 of 1). -/
theorem claim7_attention_shape_rowsum (w : AttnWeights) (D : ℕ) (x : List (List ℝ))
    (hx : x ≠ []) (hD : ∀ r ∈ x, r.length = D)
    (hWv : w.Wv.length = D) (hbv : w.bv.length = D) :
    (selfAttentionForward w x).length = x.length ∧
    (∀ r ∈ selfAttentionForward w x, r.length = D) ∧
    (∀ row ∈ attnWeightsOf w x,
      (∀ v ∈ row, 0 ≤ v) ∧ row.sum = 1 ∧ |row.sum - 1| ≤ 1e-5) := by
  refine ⟨length_selfAttention w x, ?_, ?_⟩
  · intro r hr
    rw [mem_matMul_length hr]
    rcases x with _ | ⟨x0, xs⟩
    · exact absurd rfl hx
    · simp only [linearMap, List.map_cons, List.headD_cons]
      rw [length_linearRow, hWv, hbv]
      exact min_self D
  · intro row hrow
    rcases List.mem_map.mp hrow with ⟨s, hs, rfl⟩
    have hslen : s.length = x.length := mem_scoresOf_length hs
    have hsne : s ≠ [] := by
      intro h0
      rw [h0] at hslen
      exact hx (List.length_eq_zero.mp hslen.symm)
    refine ⟨fun v hv => softmaxRow_nonneg hv, softmaxRow_sum s hsne, ?_⟩
    rw [softmaxRow_sum s hsne]
    norm_num

/-- C7 witness: a concrete single-position input with D = 1: the output keeps
the input's shape. -/
theorem claim7_witness :
    (selfAttentionForward (AttnWeights.mk [[1]] [[1]] [[1]] [0] [0] [0])
      [[(1:ℝ)]]).length = 1 := by
  have h := claim7_attention_shape_rowsum (AttnWeights.mk [[1]] [[1]] [[1]] [0] [0] [0])
    1 [[(1:ℝ)]] (by simp)
    (by intro r hr; rw [List.mem_singleton] at hr; rw [hr]; rfl) rfl rfl
  simpa using h.1

/-- C1: on a non-empty L × D input, the source's attention equals the spec
pipeline — project to Q, K, V through the three learned linear layers, scale
`Q · Kᵀ` by `1/√D`, apply row-wise softmax, multiply by V — and, with no mask
applied, the weight at every pair `(i, j)` (including `j > i`) is the softmax
of the corresponding scaled score. -/
theorem claim1_attention_matches_spec (w : AttnWeights) (D : ℕ) (x : List (List ℝ))
    (hx : x ≠ []) (hD : ∀ r ∈ x, r.length = D) :
    selfAttentionForward w x = attendSpec w D x ∧
    (∀ i j, i < x.length → j < x.length →
      ((attnWeightsOf w x).getD i []).getD j 0 =
        Real.exp (dot (linearRow w.Wq w.bq (x.getD i []))
            (linearRow w.Wk w.bk (x.getD j [])) / Real.sqrt (D : ℝ)) /
          (x.map (fun xr =>
            Real.exp (dot (linearRow w.Wq w.bq (x.getD i []))
              (linearRow w.Wk w.bk xr) / Real.sqrt (D : ℝ)))).sum) := by
  have hhead : (((x.headD []).length : ℕ) : ℝ) = (D : ℝ) := by
    rcases x with _ | ⟨x0, xs⟩
    · exact absurd rfl hx
    · rw [List.headD_cons, hD x0 (by simp)]
  constructor
  · simp only [selfAttentionForward, attendSpec, attnWeightsOf, scoresOf, hhead,
      div_eq_mul_inv, one_div, one_mul]
  · intro i j hi hj
    have h1 : (attnWeightsOf w x).getD i [] = softmaxRow ((scoresOf w x).getD i []) := by
      unfold attnWeightsOf
      exact getD_map_lt (by rw [length_scoresOf]; exact hi) [] []
    have h2 : (scoresOf w x).getD i [] =
        ((matMulT (linearMap w.Wq w.bq x) (linearMap w.Wk w.bk x)).getD i []).map
          (fun s => s / Real.sqrt (((x.headD []).length : ℕ) : ℝ)) := by
      unfold scoresOf
      exact getD_map_lt (by rw [length_matMulT, length_linearMap]; exact hi) [] []
    have h3 : (matMulT (linearMap w.Wq w.bq x) (linearMap w.Wk w.bk x)).getD i [] =
        (linearMap w.Wk w.bk x).map
          (fun br => dot ((linearMap w.Wq w.bq x).getD i []) br) := by
      unfold matMulT
      exact getD_map_lt (by rw [length_linearMap]; exact hi) [] []
    have h4 : (linearMap w.Wq w.bq x).getD i [] = linearRow w.Wq w.bq (x.getD i []) := by
      unfold linearMap
      exact getD_map_lt hi [] []
    have hs : (scoresOf w x).getD i [] =
        x.map (fun xr => dot (linearRow w.Wq w.bq (x.getD i []))
          (linearRow w.Wk w.bk xr) / Real.sqrt (((x.headD []).length : ℕ) : ℝ)) := by
      rw [h2, h3, h4, List.map_map]
      unfold linearMap
      rw [List.map_map]
      rfl
    rw [h1, hs]
    simp only [hhead]
    unfold softmaxRow
    rw [getD_map_lt (by rw [List.length_map]; exact hj) (0:ℝ) (0:ℝ)]
    rw [getD_map_lt hj ([] : List ℝ) (0:ℝ)]
    rw [List.map_map]
    rfl

/-- C1 witness: the refinement instantiated on a concrete single-position
input with concrete weights. -/
theorem claim1_witness :
    selfAttentionForward (AttnWeights.mk [[1]] [[1]] [[1]] [0] [0] [0]) [[(1:ℝ)]] =
      attendSpec (AttnWeights.mk [[1]] [[1]] [[1]] [0] [0] [0]) 1 [[(1:ℝ)]] :=
  (claim1_attention_matches_spec (AttnWeights.mk [[1]] [[1]] [[1]] [0] [0] [0]) 1
    [[(1:ℝ)]] (by simp)
    (by intro r hr; rw [List.mem_singleton] at hr; rw [hr]; rfl)).1

/-- C4: on a non-empty valid token sequence, `predict_next` returns the
argmax of the logit row at the last position of `forward`'s output, and the
returned index attains the maximum of that row with ties broken to the
lowest index. -/
theorem claim4_predict_next_argmax (w : LLMWeights) (ts : List ℕ)
    (hts : ts ≠ []) (hM : 1 ≤ w.maxSeqLen) (hW : w.Wout ≠ []) (hb : w.bout ≠ []) :
    predictNext w ts =
      Except.map (fun m => argmaxIdx (lastRow m)) (simpleLLMForward w ts) ∧
    (∀ m, simpleLLMForward w ts = Except.ok m →
      lastRow m ≠ [] ∧
      argmaxIdx (lastRow m) < (lastRow m).length ∧
      (∀ j, j < (lastRow m).length →
        (lastRow m).getD j 0 ≤ (lastRow m).getD (argmaxIdx (lastRow m)) 0) ∧
      (∀ j, j < (lastRow m).length →
        (lastRow m).getD j 0 = (lastRow m).getD (argmaxIdx (lastRow m)) 0 →
        argmaxIdx (lastRow m) ≤ j)) := by
  constructor
  · cases hf : simpleLLMForward w ts with
    | error e => simp [predictNext, hf, Except.map]
    | ok m =>
      have hlenm := simpleLLMForward_ok_length hM hf
      have hm0 : ¬ m.length = 0 := by
        rw [hlenm]
        intro h0
        exact hts (List.length_eq_zero.mp h0)
      simp [predictNext, hf, Except.map, hm0]
  · intro m hm
    have hlenm := simpleLLMForward_ok_length hM hm
    have hmne : m ≠ [] := by
      intro h0
      rw [h0] at hlenm
      exact hts (List.length_eq_zero.mp hlenm.symm)
    have hrowne : lastRow m ≠ [] := by
      have hmem : m.getD (m.length - 1) [] ∈ m := mem_getD_of_ne_nil hmne
      have hrl := simpleLLMForward_ok_rows hm _ hmem
      intro h0
      unfold lastRow at h0
      rw [h0] at hrl
      have hWpos : 0 < w.Wout.length := List.length_pos.mpr hW
      have hbpos : 0 < w.bout.length := List.length_pos.mpr hb
      simp at hrl
      omega
    refine ⟨hrowne, (argmaxIdx_spec (lastRow m)).1 hrowne,
      fun j hj => ((argmaxIdx_spec (lastRow m)).2 j hj).1,
      fun j hj he => ((argmaxIdx_spec (lastRow m)).2 j hj).2 he⟩

/-- C4 witness: a concrete zero-layer model with vocabulary size 1 and a
one-token input. -/
theorem claim4_witness :
    predictNext (LLMWeights.mk [[(1:ℝ)]] 1 1 [] [[1]] [0]) [0] =
      Except.map (fun m => argmaxIdx (lastRow m))
        (simpleLLMForward (LLMWeights.mk [[(1:ℝ)]] 1 1 [] [[1]] [0]) [0]) :=
  (claim4_predict_next_argmax (LLMWeights.mk [[(1:ℝ)]] 1 1 [] [[1]] [0]) [0]
    (by simp) (le_refl 1) (by simp) (by simp)).1

/-- C6 counterexample: the claim's description of LayerNorm as producing unit
variance fails on the concrete position vector `[0, 1]` — the source's
`nn.LayerNorm` divides by `sqrt(var + 1e-5)`, so the normalized vector has
variance `(1/4)/(1/4 + 1e-5) ≠ 1`. -/
theorem claim6_unit_variance_cex :
    rowVar (normalizeRow layerNormEps [(0:ℝ), 1]) ≠ 1 := by
  have hmean : rowMean [(0:ℝ), 1] = 1 / 2 := by
    norm_num [rowMean]
  have hvar : rowVar [(0:ℝ), 1] = 1 / 4 := by
    norm_num [rowVar, hmean]
  have heps : (0:ℝ) < 1 / 4 + layerNormEps := by
    unfold layerNormEps
    norm_num
  set c := Real.sqrt (rowVar [(0:ℝ), 1] + layerNormEps) with hc
  have hc2 : c ^ 2 = 1 / 4 + layerNormEps := by
    rw [hc, hvar]
    exact Real.sq_sqrt heps.le
  have hcpos : 0 < c := by
    rw [hc, hvar]
    exact Real.sqrt_pos.mpr heps
  have hnorm : normalizeRow layerNormEps [(0:ℝ), 1] =
      [(0 - 1 / 2) / c, (1 - 1 / 2) / c] := by
    rw [normalizeRow, hmean, ← hc]
    rfl
  have hval : rowVar [((0:ℝ) - 1 / 2) / c, (1 - 1 / 2) / c] = (1 / 4) / c ^ 2 := by
    simp only [rowVar, rowMean, List.map_cons, List.map_nil, List.sum_cons,
      List.sum_nil, List.length_cons, List.length_nil]
    push_cast
    field_simp
    ring
  rw [hnorm, hval, hc2]
  unfold layerNormEps
  norm_num

/-- C6 (amended: LayerNorm normalizes to zero mean and to variance
`σ²/(σ² + ε)` with `ε = 1e-5`, i.e. unit variance only up to the ε
stabiliser): the block computes
`LayerNorm2(x1 + FeedForward(x1))` with `x1 = LayerNorm1(x + attend(x))`,
the feed-forward is linear → ReLU → linear, the normalisation step before
the learned scale and shift has zero mean and variance `σ²/(σ² + ε)`, and
the output shape equals the input shape. -/
theorem claim6_transformer_block (bw : BlockWeights) (x : List (List ℝ)) (D : ℕ)
    (hD : ∀ r ∈ x, r.length = D)
    (hWv : bw.attn.Wv.length = D) (hbv : bw.attn.bv.length = D)
    (hW2 : bw.W2.length = D) (hb2 : bw.b2.length = D)
    (hg1 : bw.gamma1.length = D) (hbe1 : bw.beta1.length = D)
    (hg2 : bw.gamma2.length = D) (hbe2 : bw.beta2.length = D) :
    transformerBlockForward bw x =
      layerNorm bw.gamma2 bw.beta2
        (addMat (layerNorm bw.gamma1 bw.beta1 (addMat x (selfAttentionForward bw.attn x)))
          (feedForward bw
            (layerNorm bw.gamma1 bw.beta1 (addMat x (selfAttentionForward bw.attn x))))) ∧
    (∀ y, feedForward bw y =
      linearMap bw.W2 bw.b2 ((linearMap bw.W1 bw.b1 y).map reluRow)) ∧
    (∀ v : List ℝ, rowMean (normalizeRow layerNormEps v) = 0) ∧
    (∀ v : List ℝ, rowVar (normalizeRow layerNormEps v) =
      rowVar v / (rowVar v + layerNormEps)) ∧
    (transformerBlockForward bw x).length = x.length ∧
    (∀ r ∈ transformerBlockForward bw x, r.length = D) := by
  have hx1rows : ∀ r2 ∈ layerNorm bw.gamma1 bw.beta1
      (addMat x (selfAttentionForward bw.attn x)), r2.length = D := by
    intro r2 hr2
    rcases List.mem_map.mp hr2 with ⟨v2, hv2, rfl⟩
    rw [length_layerNormRow, hg1, hbe1]
    rcases mem_addMat hv2 with ⟨u2, hu2, t2, ht2, rfl⟩
    have hu2l : u2.length = D := hD u2 hu2
    have ht2l : t2.length = D := by
      have hxne : x ≠ [] := List.ne_nil_of_mem hu2
      rw [mem_matMul_length ht2]
      rcases x with _ | ⟨x0, xs⟩
      · exact absurd rfl hxne
      · simp only [linearMap, List.map_cons, List.headD_cons]
        rw [length_linearRow, hWv, hbv]
        exact min_self D
    rw [List.length_zipWith, hu2l, ht2l]
    simp
  refine ⟨rfl, fun y => rfl, fun v => rowMean_normalizeRow layerNormEps v,
    fun v => rowVar_normalizeRow layerNormEps v (rowVar_add_eps_pos v),
    length_transformerBlock bw x, ?_⟩
  intro r hr
  simp only [transformerBlockForward] at hr
  rcases List.mem_map.mp hr with ⟨v, hv, rfl⟩
  rw [length_layerNormRow, hg2, hbe2]
  rcases mem_addMat hv with ⟨u, hu, t, ht, rfl⟩
  have hul : u.length = D := hx1rows u hu
  have htl : t.length = D := by
    have := mem_linearMap_length ht
    rw [this, hW2, hb2]
    exact min_self D
  rw [List.length_zipWith, hul, htl]
  simp

/-- C6 witness: a concrete block with D = 1 on a one-position input keeps the
input's shape. -/
theorem claim6_witness :
    (transformerBlockForward demoBlock [[(1:ℝ)]]).length = 1 := by
  have h := claim6_transformer_block demoBlock [[(1:ℝ)]] 1
    (by intro r hr; rw [List.mem_singleton] at hr; rw [hr]; rfl)
    rfl rfl rfl rfl rfl rfl rfl rfl
  simpa using h.2.2.2.2.1

end SimpleLLMModel
